import Mathlib

/-!
Verification development for a DCT-based steganography codec.

The source program hides a text payload in a grayscale image by perturbing
the (4,5) coefficient of the orthonormal 2-D DCT of each 8x8 block.  This
file embeds the codec shallowly: the pixel grid is a dimension pair with an
integer-valued sample function, the transform is the exact orthonormal
DCT-II matrix over the reals, and the bit-collection / byte-decoding loops
of the extractor are executable list functions mirroring the source's
nested loops.
-/

open Real

/-- Scaling factors of the orthonormal DCT-II of length 8
(scipy `dct(.., norm='ortho')`): `sqrt(1/8)` for the DC row and
`sqrt(2/8)` for the others. -/
noncomputable def scaleF (k : ℕ) : ℝ :=
  if k = 0 then Real.sqrt (1 / 8) else Real.sqrt (2 / 8)

/-- The 8x8 orthonormal DCT-II matrix: entry `(k, n)` is
`scaleF k * cos((2n+1) * k * pi / 16)`. -/
noncomputable def dctM : Matrix (Fin 8) (Fin 8) ℝ :=
  fun k n => scaleF (k : ℕ) * Real.cos ((2 * (n : ℕ) + 1) * ((k : ℕ) * π / 16))

/-- Product-to-difference step used to telescope a sum of cosines. -/
lemma two_sin_mul_cos_step (x : ℝ) (n : ℕ) :
    2 * Real.sin x * Real.cos ((2 * n + 1) * x) =
      Real.sin (2 * (n + 1) * x) - Real.sin (2 * n * x) := by
  have e1 : 2 * ((n : ℝ) + 1) * x = (2 * n + 1) * x + x := by ring
  have e2 : 2 * (n : ℝ) * x = (2 * n + 1) * x - x := by ring
  rw [e1, e2, Real.sin_add, Real.sin_sub]
  ring

/-- Telescoped closed form of the cosine sum at odd multiples of `x`. -/
lemma two_sin_mul_sum_cos (x : ℝ) :
    2 * Real.sin x * (∑ n ∈ Finset.range 8, Real.cos ((2 * n + 1) * x)) =
      Real.sin (16 * x) := by
  rw [Finset.mul_sum]
  have h : ∀ n ∈ Finset.range 8,
      2 * Real.sin x * Real.cos ((2 * n + 1) * x) =
        Real.sin (2 * ((n : ℝ) + 1) * x) - Real.sin (2 * n * x) := by
    intro n _
    exact two_sin_mul_cos_step x n
  rw [Finset.sum_congr rfl h]
  have h2 : ∀ n ∈ Finset.range 8,
      Real.sin (2 * ((n : ℝ) + 1) * x) - Real.sin (2 * n * x) =
        (fun m : ℕ => Real.sin (2 * m * x)) (n + 1) -
          (fun m : ℕ => Real.sin (2 * m * x)) n := by
    intro n _
    push_cast
    ring_nf
  rw [Finset.sum_congr rfl h2, Finset.sum_range_sub (fun m : ℕ => Real.sin (2 * m * x)) 8]
  norm_num

/-- The odd-angle cosine sum vanishes at every nonzero frequency below 16. -/
lemma sum_cos_odd_eq_zero (m : ℕ) (hm : m ≠ 0) (hm16 : m < 16) :
    ∑ n ∈ Finset.range 8, Real.cos ((2 * n + 1) * (m * π / 16)) = 0 := by
  have hmpos : 0 < (m : ℝ) := by exact_mod_cast Nat.pos_of_ne_zero hm
  have hm16' : (m : ℝ) < 16 := by exact_mod_cast hm16
  have hxpos : 0 < (m : ℝ) * π / 16 := by positivity
  have hxlt : (m : ℝ) * π / 16 < π := by
    rw [div_lt_iff₀ (by norm_num : (0:ℝ) < 16)]
    nlinarith [Real.pi_pos]
  have hsin : 0 < Real.sin ((m : ℝ) * π / 16) :=
    Real.sin_pos_of_pos_of_lt_pi hxpos hxlt
  have htel := two_sin_mul_sum_cos ((m : ℝ) * π / 16)
  have h16 : (16 : ℝ) * ((m : ℝ) * π / 16) = (m : ℝ) * π := by ring
  rw [h16, Real.sin_nat_mul_pi] at htel
  have h2 : (2 : ℝ) * Real.sin ((m : ℝ) * π / 16) ≠ 0 := by positivity
  exact (mul_eq_zero.mp htel).resolve_left h2

/-- The odd-angle cosine sum at frequency zero. -/
lemma sum_cos_odd_zero :
    ∑ n ∈ Finset.range 8, Real.cos ((2 * n + 1) * ((0 : ℝ) * π / 16)) = 8 := by
  norm_num

/-- Product-to-sum expansion of one product of sampled cosines,
for frequencies `b ≤ a`. -/
lemma cos_mul_cos_sample (a b : ℕ) (hba : b ≤ a) (n : ℕ) :
    Real.cos ((2 * n + 1) * (a * π / 16)) * Real.cos ((2 * n + 1) * (b * π / 16)) =
      (Real.cos ((2 * n + 1) * (((a + b : ℕ) : ℝ) * π / 16)) +
        Real.cos ((2 * n + 1) * (((a - b : ℕ) : ℝ) * π / 16))) / 2 := by
  have e1 : ((2 * n + 1) * ((a : ℝ) * π / 16)) + ((2 * n + 1) * ((b : ℝ) * π / 16)) =
      (2 * n + 1) * (((a + b : ℕ) : ℝ) * π / 16) := by
    push_cast
    ring
  have e2 : ((2 * n + 1) * ((a : ℝ) * π / 16)) - ((2 * n + 1) * ((b : ℝ) * π / 16)) =
      (2 * n + 1) * (((a - b : ℕ) : ℝ) * π / 16) := by
    push_cast [Nat.cast_sub hba]
    ring
  rw [← e1, ← e2, Real.cos_add, Real.cos_sub]
  ring

/-- Orthogonality sum for a pair of DCT frequencies with `b ≤ a`. -/
lemma entry_sum_aux (a b : ℕ) (hba : b ≤ a) (ha : a < 8) :
    ∑ n ∈ Finset.range 8,
        Real.cos ((2 * n + 1) * (a * π / 16)) * Real.cos ((2 * n + 1) * (b * π / 16)) =
      if a = b then (if a = 0 then 8 else 4) else 0 := by
  have hsplit : ∑ n ∈ Finset.range 8,
      Real.cos ((2 * n + 1) * (a * π / 16)) * Real.cos ((2 * n + 1) * (b * π / 16)) =
      ((∑ n ∈ Finset.range 8, Real.cos ((2 * n + 1) * (((a + b : ℕ) : ℝ) * π / 16))) +
        (∑ n ∈ Finset.range 8, Real.cos ((2 * n + 1) * (((a - b : ℕ) : ℝ) * π / 16)))) / 2 := by
    calc ∑ n ∈ Finset.range 8,
        Real.cos ((2 * n + 1) * (a * π / 16)) * Real.cos ((2 * n + 1) * (b * π / 16)) =
        ∑ n ∈ Finset.range 8,
          (Real.cos ((2 * n + 1) * (((a + b : ℕ) : ℝ) * π / 16)) +
            Real.cos ((2 * n + 1) * (((a - b : ℕ) : ℝ) * π / 16))) / 2 :=
      Finset.sum_congr rfl fun n _ => cos_mul_cos_sample a b hba n
    _ = (∑ n ∈ Finset.range 8,
          (Real.cos ((2 * n + 1) * (((a + b : ℕ) : ℝ) * π / 16)) +
            Real.cos ((2 * n + 1) * (((a - b : ℕ) : ℝ) * π / 16)))) / 2 :=
      (Finset.sum_div _ _ _).symm
    _ = _ := by rw [Finset.sum_add_distrib]
  rcases eq_or_ne a b with rfl | hne
  · have hd : a - a = 0 := Nat.sub_self a
    rw [hsplit, hd]
    rcases eq_or_ne a 0 with rfl | ha0
    · norm_num
    · have hsum1 : ∑ n ∈ Finset.range 8,
          Real.cos ((2 * n + 1) * (((a + a : ℕ) : ℝ) * π / 16)) = 0 := by
        exact sum_cos_odd_eq_zero (a + a) (by omega) (by omega)
      have hsum2 : ∑ n ∈ Finset.range 8,
          Real.cos ((2 * n + 1) * (((0 : ℕ) : ℝ) * π / 16)) = 8 := by
        norm_num
      rw [hsum1, hsum2]
      simp [ha0]
      norm_num
  · have hblt : b < a := lt_of_le_of_ne hba (Ne.symm hne)
    have hsum1 : ∑ n ∈ Finset.range 8,
        Real.cos ((2 * n + 1) * (((a + b : ℕ) : ℝ) * π / 16)) = 0 :=
      sum_cos_odd_eq_zero (a + b) (by omega) (by omega)
    have hsum2 : ∑ n ∈ Finset.range 8,
        Real.cos ((2 * n + 1) * (((a - b : ℕ) : ℝ) * π / 16)) = 0 :=
      sum_cos_odd_eq_zero (a - b) (by omega) (by omega)
    rw [hsplit, hsum1, hsum2]
    simp [hne]

/-- Orthogonality sum for any pair of DCT frequencies below 8. -/
lemma entry_sum (a b : ℕ) (ha : a < 8) (hb : b < 8) :
    ∑ n ∈ Finset.range 8,
        Real.cos ((2 * n + 1) * (a * π / 16)) * Real.cos ((2 * n + 1) * (b * π / 16)) =
      if a = b then (if a = 0 then 8 else 4) else 0 := by
  rcases le_total b a with hba | hab
  · exact entry_sum_aux a b hba ha
  · have h := entry_sum_aux b a hab hb
    have hcomm : ∑ n ∈ Finset.range 8,
        Real.cos ((2 * n + 1) * (a * π / 16)) * Real.cos ((2 * n + 1) * (b * π / 16)) =
        ∑ n ∈ Finset.range 8,
          Real.cos ((2 * n + 1) * (b * π / 16)) * Real.cos ((2 * n + 1) * (a * π / 16)) :=
      Finset.sum_congr rfl fun n _ => mul_comm _ _
    rcases eq_or_ne a b with rfl | hne
    · rw [hcomm, h]
    · rw [hcomm, h]
      simp [hne, Ne.symm hne]

/-- The DCT matrix has orthonormal rows. -/
lemma dctM_mul_transpose : dctM * dctM.transpose = 1 := by
  ext k l
  rw [Matrix.mul_apply, Matrix.one_apply]
  have hterm : ∀ j : Fin 8, dctM k j * dctM.transpose j l =
      scaleF (k : ℕ) * scaleF (l : ℕ) *
        (Real.cos ((2 * (j : ℕ) + 1) * ((k : ℕ) * π / 16)) *
          Real.cos ((2 * (j : ℕ) + 1) * ((l : ℕ) * π / 16))) := by
    intro j
    simp only [dctM, Matrix.transpose_apply]
    ring
  rw [Finset.sum_congr rfl fun j _ => hterm j, ← Finset.mul_sum]
  have hsum : ∑ j : Fin 8,
      Real.cos ((2 * (j : ℕ) + 1) * ((k : ℕ) * π / 16)) *
        Real.cos ((2 * (j : ℕ) + 1) * ((l : ℕ) * π / 16)) =
      ∑ n ∈ Finset.range 8,
        Real.cos ((2 * n + 1) * ((k : ℕ) * π / 16)) *
          Real.cos ((2 * n + 1) * ((l : ℕ) * π / 16)) :=
    Fin.sum_univ_eq_sum_range
      (fun n => Real.cos ((2 * n + 1) * ((k : ℕ) * π / 16)) *
        Real.cos ((2 * n + 1) * ((l : ℕ) * π / 16))) 8
  rw [hsum, entry_sum (k : ℕ) (l : ℕ) k.isLt l.isLt]
  rcases eq_or_ne k l with rfl | hne
  · rw [if_pos rfl, if_pos rfl]
    rcases eq_or_ne (k : ℕ) 0 with hk0 | hk0
    · rw [if_pos hk0]
      simp only [scaleF, if_pos hk0]
      rw [Real.mul_self_sqrt (by norm_num : (0:ℝ) ≤ 1/8)]
      norm_num
    · rw [if_neg hk0]
      simp only [scaleF, if_neg hk0]
      rw [Real.mul_self_sqrt (by norm_num : (0:ℝ) ≤ 2/8)]
      norm_num
  · have hv : (k : ℕ) ≠ (l : ℕ) := fun h => hne (Fin.val_injective h)
    rw [if_neg hv, if_neg hne, mul_zero]

/-- The DCT matrix has orthonormal columns. -/
lemma transpose_mul_dctM : dctM.transpose * dctM = 1 :=
  Matrix.mul_eq_one_comm.mp dctM_mul_transpose

/-- Forward 2-D transform of an 8x8 block:
`dct(dct(block, axis=0, norm='ortho'), axis=1, norm='ortho')`, i.e. the DCT
matrix applied to the columns and then to the rows. -/
noncomputable def dct2 (B : Matrix (Fin 8) (Fin 8) ℝ) : Matrix (Fin 8) (Fin 8) ℝ :=
  dctM * B * dctM.transpose

/-- Inverse 2-D transform of an 8x8 block:
`idct(idct(block, axis=0, norm='ortho'), axis=1, norm='ortho')`. -/
noncomputable def idct2 (Y : Matrix (Fin 8) (Fin 8) ℝ) : Matrix (Fin 8) (Fin 8) ℝ :=
  dctM.transpose * Y * dctM

/-- The inverse transform undoes the forward transform exactly. -/
lemma idct2_dct2 (B : Matrix (Fin 8) (Fin 8) ℝ) : idct2 (dct2 B) = B := by
  unfold idct2 dct2
  calc dctM.transpose * (dctM * B * dctM.transpose) * dctM
      = (dctM.transpose * dctM) * B * (dctM.transpose * dctM) := by
        noncomm_ring
    _ = B := by rw [transpose_mul_dctM, Matrix.one_mul, Matrix.mul_one]

/-- The forward transform undoes the inverse transform exactly. -/
lemma dct2_idct2 (Y : Matrix (Fin 8) (Fin 8) ℝ) : dct2 (idct2 Y) = Y := by
  unfold idct2 dct2
  calc dctM * (dctM.transpose * Y * dctM) * dctM.transpose
      = (dctM * dctM.transpose) * Y * (dctM * dctM.transpose) := by
        noncomm_ring
    _ = Y := by rw [dctM_mul_transpose, Matrix.one_mul, Matrix.mul_one]

/-- A grayscale sample grid: dimensions plus an integer-valued sample
function.  Samples of grids constructed by the codec are 0 outside the
stated dimensions; input grids carry their uint8 range as a hypothesis
where a claim needs it. -/
structure Grid where
  rows : ℕ
  cols : ℕ
  px : ℕ → ℕ → ℤ

/-- A real-valued sample grid (the float32 working copy of the embedder,
before quantization back to uint8). -/
structure RealGrid where
  rows : ℕ
  cols : ℕ
  px : ℕ → ℕ → ℝ

/-- Truncated dimension: `h - (h % 8)`, the largest multiple of 8 below
`h` (the source computes `h - h % 8` when `h % 8 ≠ 0` and keeps `h`
otherwise, which is the same value). -/
def newDim (d : ℕ) : ℕ := d - d % 8

/-- Number of bits the truncated grid can carry, one per 8x8 block:
`(shape0 // 8) * (shape1 // 8)` after truncation. -/
def capacity (g : Grid) : ℕ := (newDim g.rows / 8) * (newDim g.cols / 8)

/-- The all-zero byte `'00000000'` used as terminator. -/
def zeros8 : List Bool := List.replicate 8 false

/-- Python `format(c, '08b')`: the big-endian binary digits of `c`,
left-padded with zeros to a minimum width of 8 (wider when `c ≥ 256`). -/
def format08 (c : ℕ) : List Bool :=
  (List.range (max 8 c.size)).map (fun j => c.testBit (max 8 c.size - 1 - j))

/-- The payload bitstream: each character's `format(ord(char), '08b')`
digits concatenated in order, followed by the all-zero terminator byte. -/
def payloadBits (msg : List ℕ) : List Bool :=
  (msg.map format08).flatten ++ zeros8

/-- Step 5c of the embedder: overwrite the `(4, 5)` coefficient with
`+abs(c) + alpha` for bit 1 and `-abs(c) - alpha` for bit 0. -/
noncomputable def setCoeff (M : Matrix (Fin 8) (Fin 8) ℝ) (b : Bool) (α : ℝ) :
    Matrix (Fin 8) (Fin 8) ℝ :=
  fun k l => if k = 4 ∧ l = 5 then (if b then |M 4 5| + α else -|M 4 5| - α) else M k l

/-- The 8x8 source block with block coordinates `(bi, bj)`, read from the
original image (the embedder always reads `image`, not the working copy). -/
def srcBlock (g : Grid) (bi bj : ℕ) : Matrix (Fin 8) (Fin 8) ℝ :=
  fun i j => ((g.px (8 * bi + (i : ℕ)) (8 * bj + (j : ℕ)) : ℤ) : ℝ)

/-- One block of the embedder's working copy: forward transform, coefficient
overwrite, inverse transform. -/
noncomputable def modifiedBlock (B : Matrix (Fin 8) (Fin 8) ℝ) (b : Bool) (α : ℝ) :
    Matrix (Fin 8) (Fin 8) ℝ :=
  idct2 (setCoeff (dct2 B) b α)

/-- The embedder's float32 working copy after the block loop.  The loop
writes disjoint 8x8 regions, one bit per block in raster block order,
stopping once `bit_index` reaches the bitstream length; pixels of blocks
at or beyond that length keep the source value. -/
noncomputable def stegoPx (g : Grid) (msg : List ℕ) (α : ℝ) (r c : ℕ) : ℝ :=
  if r < newDim g.rows ∧ c < newDim g.cols then
    (if (r / 8) * (newDim g.cols / 8) + c / 8 < (payloadBits msg).length then
      modifiedBlock (srcBlock g (r / 8) (c / 8))
        ((payloadBits msg).getD ((r / 8) * (newDim g.cols / 8) + c / 8) false) α
        ⟨r % 8, Nat.mod_lt r (by norm_num)⟩ ⟨c % 8, Nat.mod_lt c (by norm_num)⟩
    else ((g.px r c : ℤ) : ℝ))
  else 0

/-- The working copy as a real grid (the stego image before
`np.clip(..., 0, 255).astype(np.uint8)`). -/
noncomputable def stegoReal (g : Grid) (msg : List ℕ) (α : ℝ) : RealGrid :=
  ⟨newDim g.rows, newDim g.cols, stegoPx g msg α⟩

/-- `np.clip(x, 0, 255)`. -/
noncomputable def clip255 (x : ℝ) : ℝ := max 0 (min 255 x)

/-- `astype(np.uint8)` after the clip: float-to-integer conversion
truncates toward zero, which on the clipped (nonnegative) value is the
floor. -/
noncomputable def quantize (x : ℝ) : ℤ := ⌊clip255 x⌋

/-- The embedder.  Fails with the reported maximum character count
`total_blocks // 8` when the bitstream exceeds the block count; otherwise
returns the truncated, modified, clipped and quantized grid. -/
noncomputable def embed (g : Grid) (msg : List ℕ) (α : ℝ) : Except ℕ Grid :=
  if capacity g < (payloadBits msg).length then
    Except.error (capacity g / 8)
  else
    Except.ok ⟨newDim g.rows, newDim g.cols,
      fun r c => if r < newDim g.rows ∧ c < newDim g.cols
        then quantize (stegoPx g msg α r c) else 0⟩

/-- Total number of blocks the embedder's loop actually visits with
`bit_index < len(binary_message)`; models the final value of `bit_index`
reported by the embedder. -/
def finalBitIndex (blocks : ℕ) (len : ℕ) : ℕ :=
  (List.range blocks).foldl (fun bi _ => if bi < len then bi + 1 else bi) 0

/-- An integer grid viewed as a real grid (`astype(np.float32)`). -/
noncomputable def toReal (g : Grid) : RealGrid :=
  ⟨g.rows, g.cols, fun r c => ((g.px r c : ℤ) : ℝ)⟩

/-- The extractor's per-block bit: the 8x8 block at block coordinates
`(bi, bj)` of the (truncated) stego grid. -/
noncomputable def blockAt (G : RealGrid) (bi bj : ℕ) : Matrix (Fin 8) (Fin 8) ℝ :=
  fun i j => G.px (8 * bi + (i : ℕ)) (8 * bj + (j : ℕ))

/-- The watched mid-frequency coefficient of a block's forward transform. -/
noncomputable def coeffAt (B : Matrix (Fin 8) (Fin 8) ℝ) : ℝ := (dct2 B) 4 5

/-- `bit = 1 if dct_block[4, 5] > 0 else 0`. -/
noncomputable def blockBit (B : Matrix (Fin 8) (Fin 8) ℝ) : Bool :=
  if 0 < coeffAt B then true else false

/-- The per-block bits of the truncated stego grid, one row of bits per
row of blocks, in raster block order. -/
noncomputable def bitGrid (G : RealGrid) : List (List Bool) :=
  (List.range (newDim G.rows / 8)).map fun bi =>
    (List.range (newDim G.cols / 8)).map fun bj => blockBit (blockAt G bi bj)

/-- Python truthiness of the optional `message_length` argument: `None`
and `0` are both falsy. -/
def mlActive (ml : Option ℕ) : Bool :=
  match ml with
  | none => false
  | some n => decide (n ≠ 0)

/-- The numeric value of the optional `message_length`. -/
def mlVal (ml : Option ℕ) : ℕ :=
  match ml with
  | none => 0
  | some n => n

/-- Python `extracted_bits[-8:]` on a list of at least 8 bits: the last
8 elements. -/
def lastByte (l : List Bool) : List Bool := l.drop (l.length - 8)

/-- The extractor's inner (per-row) loop.  Before appending each bit it
breaks when an expected length is active and reached; after appending,
when no length is active and the last completed byte is the all-zero
terminator, it removes those 8 bits and breaks. -/
def collectRow (act : Bool) (n : ℕ) (acc : List Bool) (row : List Bool) : List Bool :=
  match row with
  | [] => acc
  | b :: rest =>
    if act = true ∧ n ≤ acc.length then acc
    else
      if act = false ∧ (acc.length + 1) % 8 = 0 ∧ lastByte (acc ++ [b]) = zeros8 then
        (acc ++ [b]).take (acc.length + 1 - 8)
      else
        collectRow act n (acc ++ [b]) rest

/-- The extractor's outer (per-block-row) loop: run the inner loop on each
row of blocks, then re-check the stop condition on the accumulated bits
(re-reading the last 8 bits of the possibly truncated list). -/
def collectRows (act : Bool) (n : ℕ) (acc : List Bool) (rows : List (List Bool)) :
    List Bool :=
  match rows with
  | [] => acc
  | row :: rest =>
    let acc2 := collectRow act n acc row
    if (act = true ∧ n ≤ acc2.length) ∨
        (act = false ∧ acc2.length % 8 = 0 ∧ 8 ≤ acc2.length ∧ lastByte acc2 = zeros8) then
      acc2
    else
      collectRows act n acc2 rest

/-- `[extracted_bits[i:i+8] for i in range(0, len(extracted_bits), 8)]`:
consecutive groups of 8 bits, the last possibly shorter. -/
def chunks8 : List Bool → List (List Bool)
  | [] => []
  | b1 :: b2 :: b3 :: b4 :: b5 :: b6 :: b7 :: b8 :: rest =>
    [b1, b2, b3, b4, b5, b6, b7, b8] :: chunks8 rest
  | l => [l]

/-- `int(chunk, 2)`: most-significant-bit-first binary value of a chunk. -/
def byteVal (l : List Bool) : ℕ :=
  l.foldl (fun a b => 2 * a + cond b 1 0) 0

/-- The accepted decode set: printable ASCII plus tab, newline and
carriage return. -/
def isAccepted (v : ℕ) : Bool :=
  decide ((32 ≤ v ∧ v ≤ 126) ∨ v = 9 ∨ v = 10 ∨ v = 13)

/-- The extractor's decoding loop: walk the chunks, keep only full bytes
whose value is in the accepted set, and append the corresponding
character. -/
def decodeBits (l : List Bool) : String :=
  (chunks8 l).foldl
    (fun s ch =>
      if ch.length = 8 then
        (if isAccepted (byteVal ch) then s.push (Char.ofNat (byteVal ch)) else s)
      else s)
    ""

/-- The extractor on a real-valued grid: truncate, collect bits block by
block with the nested stopping rules, then decode. -/
noncomputable def extractR (G : RealGrid) (ml : Option ℕ) : String :=
  decodeBits (collectRows (mlActive ml) (mlVal ml) [] (bitGrid G))

/-- The extractor on a uint8 grid (blocks are read `astype(np.float32)`). -/
noncomputable def extractI (g : Grid) (ml : Option ℕ) : String :=
  extractR (toReal g) ml

/-- A list of character codes rendered as a string. -/
def codesToString (msg : List ℕ) : String :=
  String.mk (msg.map Char.ofNat)

/-- With an active expected length, the inner loop appends bits until the
length is reached: it computes a take of the concatenation. -/
lemma collectRow_true (row : List Bool) : ∀ (acc : List Bool) (n : ℕ),
    acc.length ≤ n → collectRow true n acc row = (acc ++ row).take n := by
  induction row with
  | nil =>
    intro acc n h
    simp [collectRow, List.take_of_length_le h]
  | cons b rest ih =>
    intro acc n h
    rw [collectRow]
    by_cases hn : n ≤ acc.length
    · have hacc : acc.length = n := le_antisymm h hn
      rw [if_pos ⟨rfl, hn⟩, List.take_append_of_le_length (by omega),
        List.take_of_length_le h]
    · rw [if_neg (by simp [hn]), if_neg (by simp), ih (acc ++ [b]) n (by simp; omega)]
      simp

/-- With an active expected length, the whole nested loop collects exactly
the first `n` bits of the raster-order bit sequence. -/
lemma collectRows_true (rows : List (List Bool)) : ∀ (acc : List Bool) (n : ℕ),
    acc.length ≤ n → collectRows true n acc rows = (acc ++ rows.flatten).take n := by
  induction rows with
  | nil =>
    intro acc n h
    simp [collectRows, List.take_of_length_le h]
  | cons row rest ih =>
    intro acc n h
    rw [collectRows]
    by_cases hn : n ≤ acc.length + row.length
    · have hacc2 : collectRow true n acc row = (acc ++ row).take n :=
        collectRow_true row acc n h
      have hlen : (collectRow true n acc row).length = n := by
        rw [hacc2]
        simp
        omega
      rw [if_pos (Or.inl ⟨rfl, le_of_eq hlen.symm⟩), hacc2]
      have hr : (acc ++ (row :: rest).flatten).take n = (acc ++ row).take n := by
        rw [List.flatten_cons, ← List.append_assoc]
        exact List.take_append_of_le_length (by simp; omega)
      rw [hr]
    · have hrow : collectRow true n acc row = acc ++ row := by
        rw [collectRow_true row acc n h, List.take_of_length_le (by simp; omega)]
      have hcond : ¬((true = true ∧ n ≤ (collectRow true n acc row).length) ∨
          (true = false ∧ (collectRow true n acc row).length % 8 = 0 ∧
            8 ≤ (collectRow true n acc row).length ∧
            lastByte (collectRow true n acc row) = zeros8)) := by
        rw [hrow]
        simp
        omega
      rw [if_neg hcond, hrow, ih (acc ++ row) n (by simp; omega)]
      simp

/-- Unfolding equation for `chunks8`. -/
lemma chunks8_eq (l : List Bool) :
    chunks8 l = if l = [] then [] else l.take 8 :: chunks8 (l.drop 8) := by
  match l with
  | [] => rfl
  | [b1] => rfl
  | [b1, b2] => rfl
  | [b1, b2, b3] => rfl
  | [b1, b2, b3, b4] => rfl
  | [b1, b2, b3, b4, b5] => rfl
  | [b1, b2, b3, b4, b5, b6] => rfl
  | [b1, b2, b3, b4, b5, b6, b7] => rfl
  | b1 :: b2 :: b3 :: b4 :: b5 :: b6 :: b7 :: b8 :: rest => rfl

/-- Chunking the concatenation of full bytes recovers the byte list. -/
lemma chunks8_flatten (bs : List (List Bool)) (h8 : ∀ b ∈ bs, b.length = 8) :
    chunks8 bs.flatten = bs := by
  induction bs with
  | nil => simp [chunks8_eq]
  | cons c cs ih =>
    have hc : c.length = 8 := h8 c (by simp)
    have hcne : c ≠ [] := by
      intro h
      rw [h] at hc
      simp at hc
    rw [List.flatten_cons, chunks8_eq, if_neg (by simp [hcne])]
    have htake : (c ++ cs.flatten).take 8 = c := by
      rw [← hc, List.take_left]
    have hdrop : (c ++ cs.flatten).drop 8 = cs.flatten := by
      rw [← hc, List.drop_left]
    rw [htake, hdrop, ih fun b hb => h8 b (by simp [hb])]

/-- Flattening the chunks recovers the bit list (auxiliary, fuel form). -/
lemma flatten_chunks8_aux : ∀ (n : ℕ) (l : List Bool), l.length ≤ n →
    (chunks8 l).flatten = l := by
  intro n
  induction n with
  | zero =>
    intro l h
    have hl : l = [] := List.eq_nil_of_length_eq_zero (by omega)
    subst hl
    simp [chunks8_eq]
  | succ n ih =>
    intro l h
    match l with
    | [] => simp [chunks8_eq]
    | b :: rest =>
      rw [chunks8_eq, if_neg (by simp), List.flatten_cons,
        ih ((b :: rest).drop 8) (by simp at h ⊢; omega), List.take_append_drop]

/-- Flattening the chunks recovers the bit list. -/
lemma flatten_chunks8 (l : List Bool) : (chunks8 l).flatten = l :=
  flatten_chunks8_aux l.length l le_rfl

/-- `format(c, '08b')` has exactly 8 digits for byte-sized codes. -/
lemma format08_length (c : ℕ) (h : c < 256) : (format08 c).length = 8 := by
  have hsize : c.size ≤ 8 := Nat.size_le.mpr h
  simp [format08, Nat.max_eq_left hsize]

/-- For byte-sized codes the width of `format(c, '08b')` is exactly 8, so
the digit list is the 8 bits of `c`, most significant first. -/
lemma format08_eq_of_lt (c : ℕ) (h : c < 256) :
    format08 c = (List.range 8).map fun j => c.testBit (7 - j) := by
  have hsize : c.size ≤ 8 := Nat.size_le.mpr h
  unfold format08
  rw [Nat.max_eq_left hsize]

set_option maxRecDepth 8000 in
lemma byteVal_testBits : ∀ c : ℕ, c < 256 →
    byteVal ((List.range 8).map fun j => c.testBit (7 - j)) = c := by
  decide

/-- `int(format(c, '08b'), 2) = c` for byte-sized codes. -/
lemma byteVal_format08 (c : ℕ) (h : c < 256) : byteVal (format08 c) = c := by
  rw [format08_eq_of_lt c h]
  exact byteVal_testBits c h

/-- Bitstream length: 8 bits per byte-sized character plus the 8-bit
terminator. -/
lemma payloadBits_length (msg : List ℕ) (h : ∀ c ∈ msg, c < 256) :
    (payloadBits msg).length = 8 * msg.length + 8 := by
  induction msg with
  | nil => rfl
  | cons c ms ih =>
    have hc : (format08 c).length = 8 := format08_length c (h c (by simp))
    have hsplit : payloadBits (c :: ms) = format08 c ++ payloadBits ms := by
      simp [payloadBits, List.append_assoc]
    rw [hsplit, List.length_append, hc, ih fun x hx => h x (by simp [hx])]
    simp
    omega

/-- Characters produced by the decoding loop, as a filterMap over the
chunks: a chunk contributes exactly when it is a full byte whose value is
in the accepted set. -/
def specChars (l : List Bool) : List Char :=
  (chunks8 l).filterMap fun ch =>
    if ch.length = 8 ∧ isAccepted (byteVal ch) = true
    then some (Char.ofNat (byteVal ch)) else none

/-- The decoding fold, generalized over the starting string. -/
lemma decodeBits_fold (chs : List (List Bool)) : ∀ s : String,
    chs.foldl
      (fun s ch =>
        if ch.length = 8 then
          (if isAccepted (byteVal ch) then s.push (Char.ofNat (byteVal ch)) else s)
        else s) s =
    String.mk (s.data ++ (chs.filterMap fun ch =>
      if ch.length = 8 ∧ isAccepted (byteVal ch) = true
      then some (Char.ofNat (byteVal ch)) else none)) := by
  induction chs with
  | nil =>
    intro s
    simp
  | cons ch rest ih =>
    intro s
    rw [List.foldl_cons, List.filterMap_cons]
    by_cases h8 : ch.length = 8
    · by_cases hacc : isAccepted (byteVal ch) = true
      · rw [if_pos h8, if_pos hacc, if_pos ⟨h8, hacc⟩, ih]
        have hpush : (s.push (Char.ofNat (byteVal ch))).data =
            s.data ++ [Char.ofNat (byteVal ch)] := by
          cases s
          rfl
        rw [hpush]
        simp
      · rw [if_pos h8, if_neg hacc, if_neg (by simp [hacc]), ih]
    · rw [if_neg h8, if_neg (by simp [h8]), ih]

/-- The decoding loop equals its declarative characterization. -/
lemma decodeBits_eq_specChars (l : List Bool) :
    decodeBits l = String.mk (specChars l) := by
  have h := decodeBits_fold (chunks8 l) ""
  simpa [decodeBits, specChars] using h

/-- Rows of empty bit lists leave the accumulator unchanged (whether or
not the outer stop condition fires, it returns the same accumulator). -/
lemma collectRows_empty (act : Bool) (n : ℕ) (rows : List (List Bool))
    (h : ∀ r ∈ rows, r = []) : ∀ acc, collectRows act n acc rows = acc := by
  induction rows with
  | nil =>
    intro acc
    rfl
  | cons row rest ih =>
    intro acc
    have hrow : row = [] := h row (by simp)
    subst hrow
    rw [collectRows]
    have hr : collectRow act n acc [] = acc := by rw [collectRow]
    rw [hr]
    split
    · rfl
    · exact ih (fun r hr => h r (by simp [hr])) acc

/-- Last 8 bits of a list ending in a full byte. -/
lemma lastByte_append8 (x b : List Bool) (hb : b.length = 8) :
    lastByte (x ++ b) = b := by
  unfold lastByte
  rw [List.length_append, hb, Nat.add_sub_cancel, List.drop_left]

/-- The inner loop in terminator mode, walking a row that sits at offset
`p` of the ambient bit sequence `P`: it either reaches the end of `P`
inside this row and strips the terminator byte, or consumes the whole
row. -/
lemma collectRow_term (P : List Bool) (hmod : P.length % 8 = 0)
    (hterm : lastByte P = zeros8)
    (hmid : ∀ j, 0 < j → 8 * j < P.length → lastByte (P.take (8 * j)) ≠ zeros8) :
    ∀ (row : List Bool) (p : ℕ) (t : List Bool), P.drop p = row ++ t →
    collectRow false 0 (P.take p) row =
      if p + row.length = P.length ∧ 0 < row.length
      then P.take (P.length - 8)
      else P.take (p + row.length) := by
  intro row
  induction row with
  | nil =>
    intro p t hdrop
    simp [collectRow]
  | cons b rest ih =>
    intro p t hdrop
    have hlens := congrArg List.length hdrop
    rw [List.length_drop, List.length_append, List.length_cons] at hlens
    have hp : p < P.length := by omega
    have hacclen : (P.take p).length = p := by
      rw [List.length_take]
      omega
    have htake1 : P.take p ++ [b] = P.take (p + 1) := by
      rw [List.take_add]
      congr 1
      rw [hdrop]
      rfl
    have hdrop1 : P.drop (p + 1) = rest ++ t := by
      have hstep : P.drop (p + 1) = (P.drop p).drop 1 := by
        rw [List.drop_drop]
      rw [hstep, hdrop]
      rfl
    rw [collectRow]
    rw [if_neg (by simp)]
    rw [hacclen, htake1]
    by_cases hq : (p + 1) % 8 = 0 ∧ lastByte (P.take (p + 1)) = zeros8
    · -- the byte just completed is the terminator: this must be the end of P
      have hpN : p + 1 = P.length := by
        by_contra hne
        have hplt : p + 1 < P.length := by omega
        have hj : 0 < (p + 1) / 8 := by omega
        have h8j : 8 * ((p + 1) / 8) = p + 1 := by omega
        exact hmid ((p + 1) / 8) hj (by omega) (by rw [h8j]; exact hq.2)
      have hrest : rest ++ t = [] := by
        rw [← hdrop1, hpN, List.drop_length]
      have hrestnil : rest = [] := (List.append_eq_nil.mp hrest).1
      subst hrestnil
      rw [if_pos ⟨rfl, hq.1, hq.2⟩]
      rw [if_pos ⟨by simp; omega, by simp⟩]
      rw [List.take_take]
      congr 1
      omega
    · rw [if_neg (fun hcon => hq ⟨hcon.2.1, hcon.2.2⟩)]
      have hpne : p + 1 ≠ P.length := by
        intro hpe
        apply hq
        refine ⟨by omega, ?_⟩
        rw [hpe, List.take_length]
        exact hterm
      rw [ih (p + 1) t hdrop1]
      have hidx : p + (b :: rest).length = p + 1 + rest.length := by
        simp
        omega
      by_cases hN : p + 1 + rest.length = P.length
      · have hrpos : 0 < rest.length := by omega
        rw [if_pos ⟨hN, hrpos⟩, if_pos ⟨by omega, by simp⟩]
      · rw [if_neg (fun hcon => hN hcon.1)]
        rw [if_neg (fun hcon => hN (by omega))]
        rw [hidx]

/-- The outer loop in terminator mode: started anywhere strictly inside
the bit sequence `P` whose only zero byte at a byte boundary is its last
byte, it returns `P` without its final 8 bits. -/
lemma collectRows_term (P : List Bool) (hmod : P.length % 8 = 0)
    (hterm : lastByte P = zeros8)
    (hmid : ∀ j, 0 < j → 8 * j < P.length → lastByte (P.take (8 * j)) ≠ zeros8) :
    ∀ (rows : List (List Bool)) (p : ℕ), rows.flatten = P.drop p → p < P.length →
    collectRows false 0 (P.take p) rows = P.take (P.length - 8) := by
  intro rows
  induction rows with
  | nil =>
    intro p hflat hp
    exfalso
    have h := congrArg List.length hflat
    rw [List.flatten_nil, List.length_nil, List.length_drop] at h
    omega
  | cons row rest ih =>
    intro p hflat hp
    rw [List.flatten_cons] at hflat
    have hdropP : P.drop p = row ++ rest.flatten := hflat.symm
    have hlens := congrArg List.length hdropP
    rw [List.length_drop, List.length_append] at hlens
    rw [collectRows]
    rw [collectRow_term P hmod hterm hmid row p rest.flatten hdropP]
    by_cases hend : p + row.length = P.length ∧ 0 < row.length
    · -- the terminator was consumed inside this row; remaining rows are empty
      have hflatnil : rest.flatten = [] := by
        have hd : rest.flatten = P.drop (p + row.length) := by
          have hsplit : P.drop (p + row.length) = (P.drop p).drop row.length := by
            rw [List.drop_drop]
          rw [hsplit, hdropP, List.drop_left]
        rw [hd, hend.1, List.drop_length]
      have hempty : ∀ r ∈ rest, r = [] := by
        intro r hr
        rcases List.flatten_eq_nil_iff.mp hflatnil r hr with h
        exact h
      rw [if_pos hend]
      split
      · rfl
      · exact collectRows_empty false 0 rest hempty (P.take (P.length - 8))
    · rw [if_neg hend]
      have hple : p + row.length ≤ P.length := by omega
      have hplt : p + row.length < P.length := by
        rcases Nat.lt_or_ge (p + row.length) P.length with h | h
        · exact h
        · exfalso
          apply hend
          constructor
          · omega
          · -- row cannot be empty here, else p + row.length = p < P.length
            omega
      have hlen2 : (P.take (p + row.length)).length = p + row.length := by
        rw [List.length_take]
        omega
      have hcond : ¬((false = true ∧ 0 ≤ (P.take (p + row.length)).length) ∨
          (false = false ∧ (P.take (p + row.length)).length % 8 = 0 ∧
            8 ≤ (P.take (p + row.length)).length ∧
            lastByte (P.take (p + row.length)) = zeros8)) := by
        rintro (⟨h1, _⟩ | ⟨_, h2, h3, h4⟩)
        · exact Bool.false_ne_true h1
        · rw [hlen2] at h2 h3
          have hj : 0 < (p + row.length) / 8 := by omega
          have h8j : 8 * ((p + row.length) / 8) = p + row.length := by omega
          exact hmid _ hj (by omega) (by rw [h8j]; exact h4)
      rw [if_neg hcond]
      have hdrop2 : rest.flatten = P.drop (p + row.length) := by
        have hsplit : P.drop (p + row.length) = (P.drop p).drop row.length := by
          rw [List.drop_drop]
        rw [hsplit, hdropP, List.drop_left]
      exact ih (p + row.length) hdrop2 hplt

/-- The accepted decode set, as a proposition on character codes. -/
def acceptedCode (c : ℕ) : Prop :=
  (32 ≤ c ∧ c ≤ 126) ∨ c = 9 ∨ c = 10 ∨ c = 13

/-- The boolean filter agrees with the accepted set. -/
lemma isAccepted_iff (v : ℕ) : isAccepted v = true ↔ acceptedCode v := by
  simp [isAccepted, acceptedCode]

/-- Accepted codes are nonzero bytes. -/
lemma acceptedCode_facts (c : ℕ) (h : acceptedCode c) : c ≠ 0 ∧ c < 256 := by
  rcases h with ⟨h1, h2⟩ | h | h | h <;> omega

/-- Taking a multiple of 8 bits off a concatenation of full bytes takes
whole bytes. -/
lemma take_flatten_of_len8 (bs : List (List Bool)) (h8 : ∀ b ∈ bs, b.length = 8) :
    ∀ j ≤ bs.length, bs.flatten.take (8 * j) = (bs.take j).flatten := by
  induction bs with
  | nil =>
    intro j hj
    have hj0 : j = 0 := by simp at hj; omega
    subst hj0
    simp
  | cons c cs ih =>
    intro j hj
    match j with
    | 0 => simp
    | j + 1 =>
      have hc : c.length = 8 := h8 c (by simp)
      rw [List.flatten_cons, List.take_succ_cons, List.flatten_cons,
        List.take_append_eq_append_take]
      have h1 : (8 * (j + 1)) ≥ c.length := by omega
      rw [List.take_of_length_le h1]
      congr 1
      rw [show 8 * (j + 1) - c.length = 8 * j by omega]
      exact ih (fun b hb => h8 b (by simp [hb])) j (by simp at hj; omega)

/-- The payload bitstream is a concatenation of full bytes: one per
character, then the terminator. -/
lemma payloadBits_flatten (msg : List ℕ) :
    payloadBits msg = (msg.map format08 ++ [zeros8]).flatten := by
  simp [payloadBits]

/-- All bytes of the payload byte list are full for byte-sized codes. -/
lemma payload_bytes_len8 (msg : List ℕ) (h : ∀ c ∈ msg, c < 256) :
    ∀ b ∈ msg.map format08 ++ [zeros8], b.length = 8 := by
  intro b hb
  rcases List.mem_append.mp hb with hb | hb
  · rcases List.mem_map.mp hb with ⟨c, hc, rfl⟩
    exact format08_length c (h c hc)
  · simp at hb
    subst hb
    rfl

/-- The last byte of a whole-byte prefix of a byte concatenation. -/
lemma lastByte_take_flatten (bs : List (List Bool)) (h8 : ∀ b ∈ bs, b.length = 8)
    (j : ℕ) (hj : j < bs.length) :
    lastByte (bs.flatten.take (8 * (j + 1))) = bs.get ⟨j, hj⟩ := by
  rw [take_flatten_of_len8 bs h8 (j + 1) (by omega)]
  rw [List.take_succ]
  have hsome : bs[j]? = some (bs.get ⟨j, hj⟩) := by
    rw [List.getElem?_eq_getElem hj]
    simp
  rw [hsome, List.flatten_append]
  simp only [Option.toList_some, List.flatten_cons, List.flatten_nil, List.append_nil]
  exact lastByte_append8 _ _ (h8 _ (List.get_mem bs j hj))

/-- In the payload of an accepted-character message, the final byte is the
terminator. -/
lemma payload_lastByte (msg : List ℕ) :
    lastByte (payloadBits msg) = zeros8 := by
  rw [payloadBits]
  exact lastByte_append8 _ _ rfl

/-- In the payload of an accepted-character message, no byte before the
terminator is all-zero at a byte boundary. -/
lemma payload_hmid (msg : List ℕ) (h : ∀ c ∈ msg, acceptedCode c) :
    ∀ j, 0 < j → 8 * j < (payloadBits msg).length →
      lastByte ((payloadBits msg).take (8 * j)) ≠ zeros8 := by
  have h256 : ∀ c ∈ msg, c < 256 := fun c hc => (acceptedCode_facts c (h c hc)).2
  have hN : (payloadBits msg).length = 8 * msg.length + 8 := payloadBits_length msg h256
  intro j hj hjlt
  match j, hj with
  | i + 1, _ =>
    have hi : i < msg.length := by omega
    have hi2 : i < (msg.map format08 ++ [zeros8]).length := by
      simp
      omega
    rw [payloadBits_flatten msg,
      lastByte_take_flatten _ (payload_bytes_len8 msg h256) i hi2]
    have hget : (msg.map format08 ++ [zeros8]).get ⟨i, hi2⟩ =
        format08 (msg.get ⟨i, hi⟩) := by
      have hilt : i < (msg.map format08).length := by simp; omega
      rw [List.get_eq_getElem, List.getElem_append_left hilt, List.getElem_map]
      simp
    intro hcon
    rw [hget] at hcon
    have hc := h (msg.get ⟨i, hi⟩) (List.get_mem msg i hi)
    have hfacts := acceptedCode_facts _ hc
    have hbv : byteVal (format08 (msg.get ⟨i, hi⟩)) = msg.get ⟨i, hi⟩ :=
      byteVal_format08 _ hfacts.2
    rw [hcon] at hbv
    have hz : byteVal zeros8 = 0 := rfl
    rw [hz] at hbv
    exact hfacts.1 hbv.symm

/-- Decoding the byte list of an accepted-character message yields exactly
its characters. -/
lemma filterMap_format08 (msg : List ℕ) (h : ∀ c ∈ msg, acceptedCode c) :
    (msg.map format08).filterMap (fun ch =>
        if ch.length = 8 ∧ isAccepted (byteVal ch) = true
        then some (Char.ofNat (byteVal ch)) else none) =
      msg.map Char.ofNat := by
  induction msg with
  | nil => rfl
  | cons c ms ih =>
    have hc := h c (by simp)
    have hfacts := acceptedCode_facts c hc
    have hbv : byteVal (format08 c) = c := byteVal_format08 c hfacts.2
    rw [List.map_cons, List.filterMap_cons,
      if_pos ⟨format08_length c hfacts.2, by rw [hbv]; exact (isAccepted_iff c).mpr hc⟩,
      ih fun x hx => h x (by simp [hx])]
    rw [List.map_cons, hbv]

/-- Decoding the full-byte prefix of the payload yields the message. -/
lemma specChars_msgBytes (msg : List ℕ) (h : ∀ c ∈ msg, acceptedCode c) :
    specChars ((msg.map format08).flatten) = msg.map Char.ofNat := by
  have h256 : ∀ c ∈ msg, c < 256 := fun c hc => (acceptedCode_facts c (h c hc)).2
  rw [specChars, chunks8_flatten _ (fun b hb => by
    rcases List.mem_map.mp hb with ⟨c, hc, rfl⟩
    exact format08_length c (h256 c hc))]
  exact filterMap_format08 msg h

/-- Stripping the terminator from the payload leaves the message bytes. -/
lemma payload_take (msg : List ℕ) :
    (payloadBits msg).take ((payloadBits msg).length - 8) =
      (msg.map format08).flatten := by
  rw [payloadBits]
  have hlen : ((msg.map format08).flatten ++ zeros8).length =
      (msg.map format08).flatten.length + 8 := by
    simp [zeros8]
  rw [hlen, Nat.add_sub_cancel, List.take_left]

/-- Prefix of the position-indexed bit values of a list. -/
lemma range_map_getD (P : List Bool) : ∀ k ≤ P.length,
    (List.range k).map (fun j => P.getD j false) = P.take k := by
  intro k
  induction k with
  | zero =>
    intro _
    simp
  | succ k ih =>
    intro hk
    have hk2 : k < P.length := by omega
    rw [List.range_succ, List.map_append, ih (by omega), List.take_succ]
    congr 1
    simp [List.getD, List.getElem?_eq_getElem hk2]

/-- A list of length `nbr * nbc`, read row-major in `nbr` rows of `nbc`
entries, flattens back to itself. -/
lemma flatten_rows_getD (nbr : ℕ) : ∀ (P : List Bool) (nbc : ℕ),
    P.length = nbr * nbc →
    ((List.range nbr).map fun bi =>
      (List.range nbc).map fun bj => P.getD (bi * nbc + bj) false).flatten = P := by
  induction nbr with
  | zero =>
    intro P nbc hP
    simp at hP ⊢
    exact hP
  | succ nbr ih =>
    intro P nbc hP
    rw [List.range_succ_eq_map, List.map_cons, List.flatten_cons, List.map_map]
    have hnbc : nbc ≤ P.length := by
      rw [hP, Nat.add_mul, one_mul]
      omega
    have hrow0 : (List.range nbc).map (fun bj => P.getD (0 * nbc + bj) false) =
        P.take nbc := by
      have hcast : (fun bj => P.getD (0 * nbc + bj) false) =
          (fun j => P.getD j false) := by
        funext bj
        simp
      rw [hcast]
      exact range_map_getD P nbc hnbc
    have hrows : (List.range nbr).map ((fun bi =>
          (List.range nbc).map fun bj => P.getD (bi * nbc + bj) false) ∘ Nat.succ) =
        (List.range nbr).map (fun bi =>
          (List.range nbc).map fun bj => (P.drop nbc).getD (bi * nbc + bj) false) := by
      apply List.map_congr_left
      intro bi _
      simp only [Function.comp_apply]
      apply List.map_congr_left
      intro bj _
      rw [show bi.succ * nbc + bj = nbc + (bi * nbc + bj) by rw [Nat.succ_mul]; omega]
      simp [List.getD, List.getElem?_drop]
    rw [hrow0, hrows, ih (P.drop nbc) nbc
      (by rw [List.length_drop, hP, Nat.add_mul, one_mul]; omega)]
    exact List.take_append_drop nbc P

/-- The truncated dimension is the largest lower multiple of 8. -/
lemma newDim_eq (d : ℕ) : newDim d = 8 * (d / 8) := by
  unfold newDim
  omega

/-- Truncation is idempotent. -/
lemma newDim_idem (d : ℕ) : newDim (newDim d) = newDim d := by
  unfold newDim
  omega

/-- Truncation does not change the block count along a dimension. -/
lemma newDim_div (d : ℕ) : newDim d / 8 = d / 8 := by
  unfold newDim
  omega

/-- The sign of the encoded coefficient recovers the embedded bit. -/
lemma blockBit_modifiedBlock (B : Matrix (Fin 8) (Fin 8) ℝ) (b : Bool) (α : ℝ)
    (hα : 0 < α) : blockBit (modifiedBlock B b α) = b := by
  unfold blockBit coeffAt modifiedBlock
  rw [dct2_idct2]
  show (if 0 < setCoeff (dct2 B) b α 4 5 then true else false) = b
  have hval : setCoeff (dct2 B) b α 4 5 =
      (if b then |dct2 B 4 5| + α else -|dct2 B 4 5| - α) := by
    unfold setCoeff
    rw [if_pos ⟨rfl, rfl⟩]
  rw [hval]
  have habs := abs_nonneg (dct2 B 4 5)
  cases b
  · rw [if_neg (by simp : ¬(false = true))]
    rw [if_neg (by linarith : ¬(0 < -|dct2 B 4 5| - α))]
  · rw [if_pos rfl]
    rw [if_pos (by linarith : 0 < |dct2 B 4 5| + α)]

/-- Inside the embedded region, a block of the working copy is exactly the
modified source block carrying its payload bit. -/
lemma blockAt_stego (g : Grid) (msg : List ℕ) (α : ℝ) (bi bj : ℕ)
    (hbi : bi < newDim g.rows / 8) (hbj : bj < newDim g.cols / 8)
    (hidx : bi * (newDim g.cols / 8) + bj < (payloadBits msg).length) :
    blockAt (stegoReal g msg α) bi bj =
      modifiedBlock (srcBlock g bi bj)
        ((payloadBits msg).getD (bi * (newDim g.cols / 8) + bj) false) α := by
  funext i j
  have hrows := newDim_eq g.rows
  have hcols := newDim_eq g.cols
  have hi8 := i.isLt
  have hj8 := j.isLt
  have hr : 8 * bi + (i : ℕ) < newDim g.rows := by
    rw [hrows]
    rw [newDim_div] at hbi
    omega
  have hc : 8 * bj + (j : ℕ) < newDim g.cols := by
    rw [hcols]
    rw [newDim_div] at hbj
    omega
  have hdivr : (8 * bi + (i : ℕ)) / 8 = bi := by omega
  have hdivc : (8 * bj + (j : ℕ)) / 8 = bj := by omega
  have hmodr : (8 * bi + (i : ℕ)) % 8 = (i : ℕ) := by omega
  have hmodc : (8 * bj + (j : ℕ)) % 8 = (j : ℕ) := by omega
  show stegoPx g msg α (8 * bi + (i : ℕ)) (8 * bj + (j : ℕ)) = _
  unfold stegoPx
  rw [if_pos ⟨hr, hc⟩]
  rw [hdivr, hdivc]
  rw [if_pos hidx]
  congr 1
  · exact Fin.ext hmodr
  · exact Fin.ext hmodc

/-- When the payload exactly fills the truncated grid, the bit rows read
back by the extractor are the payload bits in raster block order. -/
lemma bitGrid_stego (g : Grid) (msg : List ℕ) (α : ℝ) (hα : 0 < α)
    (hcap : capacity g = (payloadBits msg).length) :
    bitGrid (stegoReal g msg α) =
      (List.range (newDim g.rows / 8)).map fun bi =>
        (List.range (newDim g.cols / 8)).map fun bj =>
          (payloadBits msg).getD (bi * (newDim g.cols / 8) + bj) false := by
  unfold bitGrid stegoReal
  simp only [newDim_idem]
  apply List.map_congr_left
  intro bi hbi
  rw [List.mem_range] at hbi
  apply List.map_congr_left
  intro bj hbj
  rw [List.mem_range] at hbj
  have hidx : bi * (newDim g.cols / 8) + bj < (payloadBits msg).length := by
    rw [← hcap]
    unfold capacity
    have h1 : bi * (newDim g.cols / 8) + bj < (bi + 1) * (newDim g.cols / 8) := by
      rw [Nat.add_mul, one_mul]
      omega
    have h2 : (bi + 1) * (newDim g.cols / 8) ≤
        (newDim g.rows / 8) * (newDim g.cols / 8) :=
      Nat.mul_le_mul_right _ (by omega)
    omega
  have hblock := blockAt_stego g msg α bi bj hbi hbj hidx
  show blockBit (blockAt ⟨newDim g.rows, newDim g.cols, stegoPx g msg α⟩ bi bj) = _
  have hsame : blockAt ⟨newDim g.rows, newDim g.cols, stegoPx g msg α⟩ bi bj =
      blockAt (stegoReal g msg α) bi bj := rfl
  rw [hsame, hblock, blockBit_modifiedBlock _ _ _ hα]

/-- Exact-arithmetic round trip at exactly-filled capacity: extracting
(with no expected length) from the real-valued working copy recovers the
message. -/
lemma roundtrip_exact (g : Grid) (msg : List ℕ) (α : ℝ) (hα : 0 < α)
    (hmsg : ∀ c ∈ msg, acceptedCode c)
    (hcap : capacity g = 8 * (msg.length + 1)) :
    extractR (stegoReal g msg α) none = codesToString msg := by
  have h256 : ∀ c ∈ msg, c < 256 := fun c hc => (acceptedCode_facts c (hmsg c hc)).2
  have hN : (payloadBits msg).length = 8 * msg.length + 8 := payloadBits_length msg h256
  have hcap2 : capacity g = (payloadBits msg).length := by omega
  have hmod : (payloadBits msg).length % 8 = 0 := by omega
  have hrows := bitGrid_stego g msg α hα hcap2
  have hflat : (bitGrid (stegoReal g msg α)).flatten = payloadBits msg := by
    rw [hrows]
    apply flatten_rows_getD
    rw [← hcap2]
    rfl
  unfold extractR
  have hml : mlActive none = false := rfl
  have hmv : mlVal none = 0 := rfl
  rw [hml, hmv]
  have hstart : ([] : List Bool) = (payloadBits msg).take 0 := rfl
  rw [hstart, collectRows_term (payloadBits msg) hmod (payload_lastByte msg)
    (payload_hmid msg hmsg) (bitGrid (stegoReal g msg α)) 0
    (by rw [List.drop_zero]; exact hflat) (by omega)]
  rw [payload_take msg, decodeBits_eq_specChars, specChars_msgBytes msg hmsg]
  rfl

/-- Clipping then truncating any value below 1 yields the zero sample. -/
lemma quantize_of_lt_one (x : ℝ) (h : x < 1) : quantize x = 0 := by
  unfold quantize clip255
  have hmin : min 255 x = x := min_eq_right (by linarith)
  rw [hmin]
  rw [Int.floor_eq_zero_iff]
  constructor
  · exact le_max_left 0 x
  · exact max_lt one_pos h

/-- Clipping and truncating an in-range integer sample is the identity. -/
lemma quantize_intCast (z : ℤ) (h0 : 0 ≤ z) (h255 : z ≤ 255) :
    quantize ((z : ℤ) : ℝ) = z := by
  unfold quantize clip255
  have hmin : min 255 ((z : ℤ) : ℝ) = ((z : ℤ) : ℝ) := by
    apply min_eq_right
    exact_mod_cast h255
  have hmax : max 0 ((z : ℤ) : ℝ) = ((z : ℤ) : ℝ) := by
    apply max_eq_right
    exact_mod_cast h0
  rw [hmin, hmax, Int.floor_intCast]

/-- A matrix supported on the single entry `(4, 5)`. -/
noncomputable def singleM (v : ℝ) : Matrix (Fin 8) (Fin 8) ℝ :=
  fun k l => if k = 4 ∧ l = 5 then v else 0

/-- Inverse transform of a matrix supported on the single entry `(4, 5)`. -/
lemma idct2_single (v : ℝ) (i j : Fin 8) :
    idct2 (singleM v) i j = v * (dctM 4 i * dctM 5 j) := by
  unfold idct2
  rw [Matrix.mul_apply]
  have hinner : ∀ m : Fin 8,
      (dctM.transpose * singleM v) i m = if m = 5 then dctM 4 i * v else 0 := by
    intro m
    rw [Matrix.mul_apply]
    by_cases hm : m = 5
    · subst hm
      rw [if_pos rfl]
      rw [Finset.sum_eq_single 4]
      · simp [Matrix.transpose_apply, singleM]
      · intro k _ hk
        simp [singleM, hk]
      · intro h4
        exact absurd (Finset.mem_univ 4) h4
    · rw [if_neg hm]
      apply Finset.sum_eq_zero
      intro k _
      simp [singleM, hm]
  have houter : ∑ m : Fin 8, (dctM.transpose * singleM v) i m * dctM m j =
      ∑ m : Fin 8, (if m = 5 then dctM 4 i * v else 0) * dctM m j :=
    Finset.sum_congr rfl fun m _ => by rw [hinner m]
  rw [houter, Finset.sum_eq_single 5]
  · rw [if_pos rfl]
    ring
  · intro m _ hm
    rw [if_neg hm, zero_mul]
  · intro h5
    exact absurd (Finset.mem_univ 5) h5

/-- The forward transform of the zero block is zero. -/
lemma dct2_zero : dct2 (0 : Matrix (Fin 8) (Fin 8) ℝ) = 0 := by
  unfold dct2
  rw [Matrix.mul_zero, Matrix.zero_mul]

/-- Overwriting the coefficient of the zero transform gives a single-entry
matrix holding the signed strength. -/
lemma setCoeff_zero (b : Bool) (α : ℝ) :
    setCoeff (0 : Matrix (Fin 8) (Fin 8) ℝ) b α = singleM (if b then α else -α) := by
  funext k l
  unfold setCoeff singleM
  by_cases h : k = 4 ∧ l = 5
  · rw [if_pos h, if_pos h]
    cases b <;> simp
  · rw [if_neg h, if_neg h]
    rfl

/-- Non-DC rows of the DCT matrix have entries of magnitude at most 1/2. -/
lemma abs_dctM_le_half (k i : Fin 8) (hk : (k : ℕ) ≠ 0) : |dctM k i| ≤ 1 / 2 := by
  have hs : scaleF (k : ℕ) = 1 / 2 := by
    unfold scaleF
    rw [if_neg hk, show (2 : ℝ) / 8 = (1 / 2) ^ 2 by norm_num,
      Real.sqrt_sq (by norm_num : (0:ℝ) ≤ 1 / 2)]
  show |scaleF (k : ℕ) * Real.cos _| ≤ 1 / 2
  rw [hs, abs_mul, abs_of_nonneg (by norm_num : (0:ℝ) ≤ 1/2)]
  have := Real.abs_cos_le_one ((2 * (((i : ℕ) : ℝ)) + 1) * (((k : ℕ) : ℝ) * π / 16))
  nlinarith [abs_nonneg (Real.cos ((2 * (((i : ℕ) : ℝ)) + 1) * (((k : ℕ) : ℝ) * π / 16)))]

/-- The all-zero grid. -/
def zeroG (h w : ℕ) : Grid := ⟨h, w, fun _ _ => 0⟩

/-- Source blocks of the all-zero grid are zero. -/
lemma srcBlock_zeroG (h w bi bj : ℕ) : srcBlock (zeroG h w) bi bj = 0 := by
  funext i j
  simp [srcBlock, zeroG]

/-- Every sample written for the all-zero grid at strength 1/10 is smaller
than one in magnitude, so it quantizes to the zero sample. -/
lemma modifiedBlock_zero_small (b : Bool) (i j : Fin 8) :
    modifiedBlock (0 : Matrix (Fin 8) (Fin 8) ℝ) b (1 / 10) i j < 1 := by
  unfold modifiedBlock
  rw [dct2_zero, setCoeff_zero, idct2_single]
  have h4 : |dctM 4 i| ≤ 1 / 2 := abs_dctM_le_half 4 i (by decide)
  have h5 : |dctM 5 j| ≤ 1 / 2 := abs_dctM_le_half 5 j (by decide)
  have habs : |(if b then (1:ℝ)/10 else -(1/10)) * (dctM 4 i * dctM 5 j)| ≤ 1 / 40 := by
    rw [abs_mul, abs_mul]
    have hb : |(if b then (1:ℝ)/10 else -(1/10))| = 1 / 10 := by
      cases b <;> simp
    rw [hb]
    nlinarith [abs_nonneg (dctM 4 i), abs_nonneg (dctM 5 j)]
  have := abs_le.mp habs
  linarith [this.2]

/-- Embedding any fitting message into an all-zero grid (with dimensions
that are multiples of 8) at the default strength 1/10 writes perturbations
below one intensity level everywhere, so the quantized output is the
all-zero grid again. -/
lemma embed_zeroG (h w : ℕ) (msg : List ℕ) (hh : h % 8 = 0) (hw : w % 8 = 0)
    (hfit : (payloadBits msg).length ≤ capacity (zeroG h w)) :
    embed (zeroG h w) msg (1 / 10) = Except.ok (zeroG h w) := by
  have hnh : newDim (zeroG h w).rows = h := by
    show newDim h = h
    unfold newDim
    omega
  have hnw : newDim (zeroG h w).cols = w := by
    show newDim w = w
    unfold newDim
    omega
  unfold embed
  rw [if_neg (by omega)]
  congr 1
  rw [Grid.mk.injEq]
  refine ⟨hnh, hnw, ?_⟩
  funext r c
  by_cases hin : r < newDim (zeroG h w).rows ∧ c < newDim (zeroG h w).cols
  · rw [if_pos hin]
    show quantize (stegoPx (zeroG h w) msg (1 / 10) r c) = 0
    unfold stegoPx
    rw [if_pos hin]
    by_cases hidx : (r / 8) * (newDim (zeroG h w).cols / 8) + c / 8 <
        (payloadBits msg).length
    · rw [if_pos hidx, srcBlock_zeroG]
      exact quantize_of_lt_one _ (modifiedBlock_zero_small _ _ _)
    · rw [if_neg hidx]
      show quantize (((0 : ℤ) : ℝ)) = 0
      exact quantize_intCast 0 le_rfl (by norm_num)
  · rw [if_neg hin]
    rfl

/-- The zero block reads back as bit 0. -/
lemma blockBit_zero : blockBit (0 : Matrix (Fin 8) (Fin 8) ℝ) = false := by
  unfold blockBit coeffAt
  rw [dct2_zero]
  rw [if_neg]
  intro hcon
  exact lt_irrefl 0 hcon

/-- Blocks of the all-zero grid are zero. -/
lemma blockAt_zeroG (h w bi bj : ℕ) : blockAt (toReal (zeroG h w)) bi bj = 0 := by
  funext i j
  simp [blockAt, toReal, zeroG]

/-- The extractor reads an all-false bit grid off the all-zero grid. -/
lemma bitGrid_zeroG (h w : ℕ) :
    bitGrid (toReal (zeroG h w)) =
      List.replicate (newDim h / 8) (List.replicate (newDim w / 8) false) := by
  unfold bitGrid
  have hrow : ∀ bi ∈ List.range (newDim (toReal (zeroG h w)).rows / 8),
      ((List.range (newDim (toReal (zeroG h w)).cols / 8)).map fun bj =>
        blockBit (blockAt (toReal (zeroG h w)) bi bj)) =
      List.replicate (newDim w / 8) false := by
    intro bi _
    calc (List.range (newDim (toReal (zeroG h w)).cols / 8)).map
          (fun bj => blockBit (blockAt (toReal (zeroG h w)) bi bj)) =
        (List.range (newDim (toReal (zeroG h w)).cols / 8)).map (fun _ => false) :=
          List.map_congr_left (fun bj _ => by rw [blockAt_zeroG, blockBit_zero])
      _ = List.replicate (newDim w / 8) false := by
          rw [List.map_const', List.length_range]
          rfl
  calc (List.range (newDim (toReal (zeroG h w)).rows / 8)).map _ =
      (List.range (newDim (toReal (zeroG h w)).rows / 8)).map
        (fun _ => List.replicate (newDim w / 8) false) := List.map_congr_left hrow
    _ = List.replicate (newDim h / 8) (List.replicate (newDim w / 8) false) := by
        rw [List.map_const', List.length_range]
        rfl

/-- Extracting from the all-zero 32x32 grid yields the empty string: every
byte boundary hits the terminator and strips the byte. -/
lemma extractI_zero32 : extractI (zeroG 32 32) none = "" := by
  unfold extractI extractR
  rw [bitGrid_zeroG]
  show decodeBits (collectRows false 0 []
    (List.replicate 4 (List.replicate 4 false))) = ""
  rfl

/-- A 16x64 stego grid: the first block row reads back as the all-zero
terminator byte, while the second block row encodes the byte 01000001
('A') via single bright pixels in blocks 1 and 7. -/
def gridC2 : Grid :=
  ⟨16, 64, fun r c => if r = 8 ∧ (c = 8 ∨ c = 56) then 1 else 0⟩

/-- A block with a single unit sample in its corner. -/
noncomputable def e00 : Matrix (Fin 8) (Fin 8) ℝ :=
  fun i j => if i = 0 ∧ j = 0 then 1 else 0

/-- Watched coefficient of the single-corner-pixel block. -/
lemma coeffAt_e00 : coeffAt e00 = dctM 4 0 * dctM 5 0 := by
  unfold coeffAt dct2
  rw [Matrix.mul_apply]
  have hinner : ∀ m : Fin 8,
      (dctM * e00) 4 m = if m = 0 then dctM 4 0 else 0 := by
    intro m
    rw [Matrix.mul_apply]
    by_cases hm : m = 0
    · subst hm
      rw [if_pos rfl]
      rw [Finset.sum_eq_single 0]
      · simp [e00]
      · intro k _ hk
        simp [e00, hk]
      · intro h0
        exact absurd (Finset.mem_univ 0) h0
    · rw [if_neg hm]
      apply Finset.sum_eq_zero
      intro k _
      simp [e00, hm]
  have houter : ∑ m : Fin 8, (dctM * e00) 4 m * dctM.transpose m 5 =
      ∑ m : Fin 8, (if m = 0 then dctM 4 0 else 0) * dctM.transpose m 5 :=
    Finset.sum_congr rfl fun m _ => by rw [hinner m]
  rw [houter, Finset.sum_eq_single 0]
  · rw [if_pos rfl, Matrix.transpose_apply]
  · intro m _ hm
    rw [if_neg hm, zero_mul]
  · intro h0
    exact absurd (Finset.mem_univ 0) h0

/-- The single-corner-pixel block reads back as bit 1: the watched
coefficient is a product of two strictly positive cosine samples. -/
lemma blockBit_e00 : blockBit e00 = true := by
  have h4 : (0 : ℝ) < dctM 4 0 := by
    show 0 < scaleF ((4 : Fin 8) : ℕ) *
      Real.cos ((2 * (((0 : Fin 8) : ℕ) : ℝ) + 1) * ((((4 : Fin 8) : ℕ) : ℝ) * π / 16))
    have hs : (0 : ℝ) < scaleF ((4 : Fin 8) : ℕ) := by
      show (0 : ℝ) < scaleF 4
      unfold scaleF
      rw [if_neg (by norm_num)]
      exact Real.sqrt_pos.mpr (by norm_num)
    have hangle : (2 * (((0 : Fin 8) : ℕ) : ℝ) + 1) *
        ((((4 : Fin 8) : ℕ) : ℝ) * π / 16) = π / 4 := by
      show (2 * ((0 : ℕ) : ℝ) + 1) * (((4 : ℕ) : ℝ) * π / 16) = π / 4
      push_cast
      ring
    rw [hangle, Real.cos_pi_div_four]
    have : (0:ℝ) < Real.sqrt 2 := Real.sqrt_pos.mpr (by norm_num)
    positivity
  have h5 : (0 : ℝ) < dctM 5 0 := by
    show 0 < scaleF ((5 : Fin 8) : ℕ) *
      Real.cos ((2 * (((0 : Fin 8) : ℕ) : ℝ) + 1) * ((((5 : Fin 8) : ℕ) : ℝ) * π / 16))
    have hs : (0 : ℝ) < scaleF ((5 : Fin 8) : ℕ) := by
      show (0 : ℝ) < scaleF 5
      unfold scaleF
      rw [if_neg (by norm_num)]
      exact Real.sqrt_pos.mpr (by norm_num)
    have hangle : (2 * (((0 : Fin 8) : ℕ) : ℝ) + 1) *
        ((((5 : Fin 8) : ℕ) : ℝ) * π / 16) = 5 * π / 16 := by
      show (2 * ((0 : ℕ) : ℝ) + 1) * (((5 : ℕ) : ℝ) * π / 16) = 5 * π / 16
      push_cast
      ring
    have hcos : (0 : ℝ) < Real.cos (5 * π / 16) := by
      apply Real.cos_pos_of_mem_Ioo
      constructor
      · have := Real.pi_pos
        linarith
      · have := Real.pi_pos
        linarith
    rw [hangle]
    exact mul_pos hs hcos
  unfold blockBit
  rw [coeffAt_e00, if_pos (mul_pos h4 h5)]

/-- Blocks of the first block row of the counterexample grid are zero. -/
lemma blockAt_gridC2_row0 (bj : ℕ) : blockAt (toReal gridC2) 0 bj = 0 := by
  funext i j
  have hi := i.isLt
  simp only [blockAt, toReal, gridC2, Matrix.zero_apply]
  rw [if_neg (by omega)]
  simp

/-- Second-row blocks of the counterexample grid away from columns 1 and 7
are zero. -/
lemma blockAt_gridC2_row1_zero (bj : ℕ) (h1 : bj ≠ 1) (h7 : bj ≠ 7) :
    blockAt (toReal gridC2) 1 bj = 0 := by
  funext i j
  have hi := i.isLt
  have hj := j.isLt
  simp only [blockAt, toReal, gridC2, Matrix.zero_apply]
  rw [if_neg (by omega)]
  simp

/-- Second-row block 1 of the counterexample grid is the corner block. -/
lemma blockAt_gridC2_b1 : blockAt (toReal gridC2) 1 1 = e00 := by
  funext i j
  have hi := i.isLt
  have hj := j.isLt
  simp only [blockAt, toReal, gridC2, e00]
  by_cases h : (i : ℕ) = 0 ∧ (j : ℕ) = 0
  · rw [if_pos (by omega), if_pos ⟨Fin.ext h.1, Fin.ext h.2⟩]
    simp
  · rw [if_neg (by omega), if_neg (by
      intro hcon
      exact h ⟨by rw [hcon.1]; rfl, by rw [hcon.2]; rfl⟩)]
    simp

/-- Second-row block 7 of the counterexample grid is the corner block. -/
lemma blockAt_gridC2_b7 : blockAt (toReal gridC2) 1 7 = e00 := by
  funext i j
  have hi := i.isLt
  have hj := j.isLt
  simp only [blockAt, toReal, gridC2, e00]
  by_cases h : (i : ℕ) = 0 ∧ (j : ℕ) = 0
  · rw [if_pos (by omega), if_pos ⟨Fin.ext h.1, Fin.ext h.2⟩]
    simp
  · rw [if_neg (by omega), if_neg (by
      intro hcon
      exact h ⟨by rw [hcon.1]; rfl, by rw [hcon.2]; rfl⟩)]
    simp

/-- Bit rows of the counterexample grid: a full terminator byte first,
then the bits of 'A'. -/
lemma bitGrid_gridC2 :
    bitGrid (toReal gridC2) =
      [List.replicate 8 false,
        [false, true, false, false, false, false, false, true]] := by
  unfold bitGrid
  have h2 : List.range (newDim (toReal gridC2).rows / 8) = [0, 1] := rfl
  have h8 : List.range (newDim (toReal gridC2).cols / 8) = [0, 1, 2, 3, 4, 5, 6, 7] := rfl
  rw [h2, h8]
  simp only [List.map_cons, List.map_nil]
  rw [blockAt_gridC2_row0 0, blockAt_gridC2_row0 1, blockAt_gridC2_row0 2,
    blockAt_gridC2_row0 3, blockAt_gridC2_row0 4, blockAt_gridC2_row0 5,
    blockAt_gridC2_row0 6, blockAt_gridC2_row0 7,
    blockAt_gridC2_row1_zero 0 (by norm_num) (by norm_num),
    blockAt_gridC2_b1,
    blockAt_gridC2_row1_zero 2 (by norm_num) (by norm_num),
    blockAt_gridC2_row1_zero 3 (by norm_num) (by norm_num),
    blockAt_gridC2_row1_zero 4 (by norm_num) (by norm_num),
    blockAt_gridC2_row1_zero 5 (by norm_num) (by norm_num),
    blockAt_gridC2_row1_zero 6 (by norm_num) (by norm_num),
    blockAt_gridC2_b7, blockBit_zero, blockBit_e00]
  rfl

/-- Extraction from the counterexample grid with no expected length walks
past the stripped terminator into the next block row and returns "A". -/
lemma extractI_gridC2_none : extractI gridC2 none = "A" := by
  unfold extractI extractR
  rw [bitGrid_gridC2]
  rfl

/-- Extraction from the counterexample grid with expected length 0 behaves
exactly like extraction with no expected length. -/
lemma extractI_gridC2_zero : extractI gridC2 (some 0) = "A" := by
  unfold extractI extractR
  rw [bitGrid_gridC2]
  rfl

/-- The embedder's loop counter ends at the smaller of the block count and
the bitstream length. -/
lemma finalBitIndex_eq_min (blocks len : ℕ) :
    finalBitIndex blocks len = min blocks len := by
  unfold finalBitIndex
  induction blocks with
  | zero => simp
  | succ b ih =>
    rw [List.range_succ, List.foldl_append, ih, List.foldl_cons, List.foldl_nil]
    split
    · omega
    · omega

/-- Number of chunks: the bit count divided by 8, rounded up. -/
lemma chunks8_length_aux : ∀ (n : ℕ) (l : List Bool), l.length ≤ n →
    (chunks8 l).length = (l.length + 7) / 8 := by
  intro n
  induction n with
  | zero =>
    intro l h
    have hl : l = [] := List.eq_nil_of_length_eq_zero (by omega)
    subst hl
    simp [chunks8_eq]
  | succ n ih =>
    intro l h
    match l with
    | [] => simp [chunks8_eq]
    | b :: rest =>
      rw [chunks8_eq, if_neg (by simp), List.length_cons,
        ih ((b :: rest).drop 8) (by simp at h ⊢; omega)]
      simp
      omega

/-- Number of chunks: the bit count divided by 8, rounded up. -/
lemma chunks8_length (l : List Bool) : (chunks8 l).length = (l.length + 7) / 8 :=
  chunks8_length_aux l.length l le_rfl

/-- The decoded string never has more characters than there are chunks. -/
lemma decodeBits_length_le (l : List Bool) :
    (decodeBits l).length ≤ (l.length + 7) / 8 := by
  rw [decodeBits_eq_specChars]
  show (specChars l).length ≤ _
  calc (specChars l).length ≤ (chunks8 l).length := List.length_filterMap_le _ _
    _ = (l.length + 7) / 8 := chunks8_length l

/-- A Python character code above one byte widens the bitstream beyond 8
bits per character: code 256 contributes 9 bits. -/
lemma size_256 : (256 : ℕ).size = 9 := by
  have h1 : (256 : ℕ).size ≤ 9 := Nat.size_le.mpr (by norm_num)
  have h2 : 8 < (256 : ℕ).size := Nat.lt_size.mpr (by norm_num)
  omega

/-- The payload of the single character 256 holds 17 bits, one more than
the 8-bits-per-character model predicts. -/
lemma payload_256_length : (payloadBits [256]).length = 17 := by
  have hf : (format08 256).length = 9 := by
    unfold format08
    rw [size_256]
    simp
  simp [payloadBits, hf, zeros8]

/-- Embedding the single character 256 into a 16-block grid aborts even
though `8 * (len + 1) = 16` fits, because `format` emits 9 bits for it. -/
lemma embed_256_err : embed (zeroG 32 32) [256] 1 = Except.error 2 := by
  have hc : capacity (zeroG 32 32) = 16 := rfl
  unfold embed
  rw [if_pos (by rw [hc, payload_256_length]; omega)]
  rw [hc]

/-- A successful embed returns the truncated, quantized working copy. -/
lemma embed_ok_px (g : Grid) (msg : List ℕ) (α : ℝ)
    (hfit : ¬(capacity g < (payloadBits msg).length)) :
    embed g msg α = Except.ok ⟨newDim g.rows, newDim g.cols,
      fun r c => if r < newDim g.rows ∧ c < newDim g.cols
        then quantize (stegoPx g msg α r c) else 0⟩ := by
  unfold embed
  rw [if_neg hfit]

/-- Pixels of blocks at or beyond the bitstream length keep the source
sample in the working copy. -/
lemma stegoPx_untouched (g : Grid) (msg : List ℕ) (α : ℝ) (r c : ℕ)
    (hin : r < newDim g.rows ∧ c < newDim g.cols)
    (hidx : (payloadBits msg).length ≤ (r / 8) * (newDim g.cols / 8) + c / 8) :
    stegoPx g msg α r c = ((g.px r c : ℤ) : ℝ) := by
  unfold stegoPx
  rw [if_pos hin, if_neg (by omega)]

/-- The grid cropped to the largest lower multiples of 8, with samples
outside the kept region dropped. -/
def crop (g : Grid) : Grid :=
  ⟨newDim g.rows, newDim g.cols,
    fun r c => if r < newDim g.rows ∧ c < newDim g.cols then g.px r c else 0⟩

/-- Cropping does not change the block count. -/
lemma capacity_crop (g : Grid) : capacity (crop g) = capacity g := by
  unfold capacity crop
  simp [newDim_idem]

/-- Samples in the kept region survive cropping. -/
lemma crop_px_in (g : Grid) (r c : ℕ)
    (hin : r < newDim g.rows ∧ c < newDim g.cols) : (crop g).px r c = g.px r c :=
  if_pos hin

/-- Source blocks inside the kept region agree between a grid and its
cropped version. -/
lemma srcBlock_crop (g : Grid) (bi bj : ℕ)
    (hbi : bi < newDim g.rows / 8) (hbj : bj < newDim g.cols / 8) :
    srcBlock (crop g) bi bj = srcBlock g bi bj := by
  funext i j
  have hi := i.isLt
  have hj := j.isLt
  have hr := newDim_eq g.rows
  have hc := newDim_eq g.cols
  show (((crop g).px (8 * bi + (i : ℕ)) (8 * bj + (j : ℕ)) : ℤ) : ℝ) = _
  rw [crop_px_in g _ _ ⟨by rw [newDim_div] at hbi; omega, by rw [newDim_div] at hbj; omega⟩]
  rfl

/-- The working copies of a grid and its cropped version agree. -/
lemma stegoPx_crop (g : Grid) (msg : List ℕ) (α : ℝ) (r c : ℕ) :
    stegoPx (crop g) msg α r c = stegoPx g msg α r c := by
  unfold stegoPx
  have hrows : newDim (crop g).rows = newDim g.rows := newDim_idem g.rows
  have hcols : newDim (crop g).cols = newDim g.cols := newDim_idem g.cols
  rw [hrows, hcols]
  by_cases hin : r < newDim g.rows ∧ c < newDim g.cols
  · rw [if_pos hin, if_pos hin]
    by_cases hidx : (r / 8) * (newDim g.cols / 8) + c / 8 < (payloadBits msg).length
    · rw [if_pos hidx, if_pos hidx, srcBlock_crop g (r / 8) (c / 8)
        (by have := newDim_eq g.rows; omega) (by have := newDim_eq g.cols; omega)]
    · rw [if_neg hidx, if_neg hidx, crop_px_in g r c hin]
  · rw [if_neg hin, if_neg hin]

/-- Embedding treats a grid exactly as its cropped version. -/
lemma embed_crop (g : Grid) (msg : List ℕ) (α : ℝ) :
    embed g msg α = embed (crop g) msg α := by
  unfold embed
  rw [capacity_crop]
  by_cases hcap : capacity g < (payloadBits msg).length
  · rw [if_pos hcap, if_pos hcap]
  · rw [if_neg hcap, if_neg hcap]
    congr 1
    rw [Grid.mk.injEq]
    have hrows : newDim (crop g).rows = newDim g.rows := newDim_idem g.rows
    have hcols : newDim (crop g).cols = newDim g.cols := newDim_idem g.cols
    refine ⟨hrows.symm, hcols.symm, ?_⟩
    funext r c
    rw [hrows, hcols, stegoPx_crop]

/-- Extraction blocks inside the kept region agree between a grid and its
cropped version. -/
lemma blockAt_crop (g : Grid) (bi bj : ℕ)
    (hbi : bi < newDim g.rows / 8) (hbj : bj < newDim g.cols / 8) :
    blockAt (toReal (crop g)) bi bj = blockAt (toReal g) bi bj := by
  funext i j
  have hi := i.isLt
  have hj := j.isLt
  have hr := newDim_eq g.rows
  have hc := newDim_eq g.cols
  show (((crop g).px (8 * bi + (i : ℕ)) (8 * bj + (j : ℕ)) : ℤ) : ℝ) = _
  rw [crop_px_in g _ _ ⟨by rw [newDim_div] at hbi; omega, by rw [newDim_div] at hbj; omega⟩]
  rfl

/-- Extraction treats a grid exactly as its cropped version. -/
lemma extractI_crop (g : Grid) (ml : Option ℕ) :
    extractI g ml = extractI (crop g) ml := by
  unfold extractI extractR
  have hbits : bitGrid (toReal (crop g)) = bitGrid (toReal g) := by
    unfold bitGrid
    have hrows : newDim (toReal (crop g)).rows = newDim g.rows := newDim_idem g.rows
    have hcols : newDim (toReal (crop g)).cols = newDim g.cols := newDim_idem g.cols
    rw [hrows, hcols]
    show _ = (List.range (newDim (toReal g).rows / 8)).map _
    have hgr : newDim (toReal g).rows = newDim g.rows := rfl
    have hgc : newDim (toReal g).cols = newDim g.cols := rfl
    rw [hgr, hgc]
    apply List.map_congr_left
    intro bi hbi
    rw [List.mem_range] at hbi
    apply List.map_congr_left
    intro bj hbj
    rw [List.mem_range] at hbj
    rw [blockAt_crop g bi bj hbi hbj]
  rw [hbits]

/-- Membership in the accepted decode set is decidable. -/
instance (c : ℕ) : Decidable (acceptedCode c) :=
  decidable_of_iff (isAccepted c = true) (isAccepted_iff c)

/-- C1 (counterexample): on the all-zero 32x32 grid — whose 16-block
capacity exactly accommodates the 16-bit stream of the printable message
"A" — embedding at strength 1/10 succeeds but its sub-unit perturbations
are wiped out by the uint8 quantization, so the returned stego grid is
all-zero again and extraction yields "" instead of "A". -/
theorem embed_roundtrip_quantization_cex :
    (0 : ℝ) < 1 / 10 ∧
    acceptedCode 65 ∧
    8 * (([65] : List ℕ).length + 1) ≤ capacity (zeroG 32 32) ∧
    embed (zeroG 32 32) [65] (1 / 10) = Except.ok (zeroG 32 32) ∧
    extractI (zeroG 32 32) none = "" ∧
    ("" : String) ≠ codesToString [65] := by
  refine ⟨by norm_num, by decide, by decide, ?_, extractI_zero32, by decide⟩
  exact embed_zeroG 32 32 [65] rfl rfl
    (by rw [payloadBits_length [65] (by decide)]; decide)

/-- C1 (amended): for every grid, every message of accepted characters and
every strength > 0, when the truncated capacity equals the bitstream
length 8 * (len + 1) exactly, extracting with no expected bit length from
the real-valued working grid (the stego image before quantization to
uint8) returns exactly the original message. -/
theorem roundtrip_realgrid_exact_capacity (g : Grid) (msg : List ℕ) (α : ℝ)
    (hα : 0 < α) (hmsg : ∀ c ∈ msg, acceptedCode c)
    (hcap : capacity g = 8 * (msg.length + 1)) :
    extractR (stegoReal g msg α) none = codesToString msg :=
  roundtrip_exact g msg α hα hmsg hcap

/-- C1 (witness): the amended round trip at the all-zero 16x32 grid with
the empty message and strength 1. -/
theorem roundtrip_realgrid_exact_capacity_witness :
    (0 : ℝ) < 1 ∧ (∀ c ∈ ([] : List ℕ), acceptedCode c) ∧
    capacity (zeroG 16 32) = 8 * (([] : List ℕ).length + 1) ∧
    extractR (stegoReal (zeroG 16 32) [] 1) none = codesToString [] :=
  ⟨one_pos, by simp, by decide,
    roundtrip_realgrid_exact_capacity (zeroG 16 32) [] 1 one_pos (by simp) (by decide)⟩

/-- C2: on a 16x64 grid whose first block row holds a completed all-zero
byte and whose second block row encodes the byte of 'A', extraction with
no expected bit length does not stop at the terminator: the inner loop
strips the terminator and breaks, but the outer loop's re-check reads the
already-truncated bit list and fails to fire, so collection continues
through the next block row and the blocks after the terminator produce
"A" instead of the empty string the stop-at-first-terminator contract
demands. -/
theorem extract_continues_after_terminator :
    extractI gridC2 none = "A" ∧ ("A" : String) ≠ "" :=
  ⟨extractI_gridC2_none, by decide⟩

/-- C3 (counterexample): the claim's bitstream formula 8 * (len + 1) is
wrong for characters with code ≥ 256: `format(ord(c), '08b')` emits 9
bits for code 256, so embedding the one-character message [256] into a
16-block grid aborts with a capacity error (reporting 16 // 8 = 2) even
though 8 * (1 + 1) = 16 does not exceed the capacity 16. -/
theorem embed_capacity_wide_char_cex :
    8 * (([256] : List ℕ).length + 1) ≤ capacity (zeroG 32 32) ∧
    embed (zeroG 32 32) [256] 1 = Except.error 2 :=
  ⟨by decide, embed_256_err⟩

/-- C3 (amended): for messages all of whose character codes are below 256,
embed fails — returning the capacity error that reports the maximum
character count `capacity / 8` and producing no grid — exactly when
8 * (len + 1) exceeds the truncated capacity, and succeeds whenever
8 * (len + 1) is at most the capacity (in particular at exact equality). -/
theorem embed_capacity_boundary (g : Grid) (msg : List ℕ) (α : ℝ)
    (h256 : ∀ c ∈ msg, c < 256) :
    (embed g msg α = Except.error (capacity g / 8) ↔
      capacity g < 8 * (msg.length + 1)) ∧
    (8 * (msg.length + 1) ≤ capacity g → (embed g msg α).isOk = true) := by
  have hlen : (payloadBits msg).length = 8 * msg.length + 8 :=
    payloadBits_length msg h256
  unfold embed
  by_cases hc : capacity g < (payloadBits msg).length
  · rw [if_pos hc]
    exact ⟨⟨fun _ => by omega, fun _ => rfl⟩, fun hle => by omega⟩
  · rw [if_neg hc]
    refine ⟨⟨fun hcon => ?_, fun hlt => by omega⟩, fun _ => rfl⟩
    exact absurd hcon (by simp)

/-- C3 (witness): the amended capacity boundary at a single-block grid
with the message "A": 16 bits exceed the 1-bit capacity, so the embed is
the capacity error reporting 0. -/
theorem embed_capacity_boundary_witness :
    (∀ c ∈ ([65] : List ℕ), c < 256) ∧
    ((embed (zeroG 8 8) [65] 1 = Except.error (capacity (zeroG 8 8) / 8) ↔
      capacity (zeroG 8 8) < 8 * (([65] : List ℕ).length + 1)) ∧
    (8 * (([65] : List ℕ).length + 1) ≤ capacity (zeroG 8 8) →
      (embed (zeroG 8 8) [65] 1).isOk = true)) :=
  ⟨by decide, embed_capacity_boundary (zeroG 8 8) [65] 1 (by decide)⟩

/-- C4 (counterexample): expected bit length 0 is falsy in Python, so the
extractor treats it as no length at all: on the counterexample grid it
returns "A" where the claim requires min(0, blocks) = 0 bits and hence
the empty string. -/
theorem extract_zero_length_cex :
    extractI gridC2 (some 0) = "A" ∧ extractI gridC2 (some 0) ≠ "" := by
  refine ⟨extractI_gridC2_zero, ?_⟩
  rw [extractI_gridC2_zero]
  decide

/-- C4 (amended): for every positive expected bit length n, extraction
collects exactly the first min(n, number of blocks) bits in raster block
order, decodes exactly that prefix, and returns at most ceil(n / 8)
characters — with n = 16, at most 2 characters and no bit of a third
block. -/
theorem extract_length_bounded (G : RealGrid) (n : ℕ) (hn : 1 ≤ n) :
    collectRows (mlActive (some n)) (mlVal (some n)) [] (bitGrid G) =
      ((bitGrid G).flatten).take n ∧
    (((bitGrid G).flatten).take n).length = min n ((bitGrid G).flatten).length ∧
    extractR G (some n) = decodeBits (((bitGrid G).flatten).take n) ∧
    (extractR G (some n)).length ≤ (n + 7) / 8 := by
  have hact : mlActive (some n) = true := by
    simp [mlActive]
    omega
  have hval : mlVal (some n) = n := rfl
  have h1 : collectRows (mlActive (some n)) (mlVal (some n)) [] (bitGrid G) =
      ((bitGrid G).flatten).take n := by
    rw [hact, hval]
    have := collectRows_true (bitGrid G) [] n (by simp)
    simpa using this
  refine ⟨h1, List.length_take _ _, ?_, ?_⟩
  · unfold extractR
    rw [h1]
  · unfold extractR
    rw [h1]
    calc (decodeBits (((bitGrid G).flatten).take n)).length ≤
        ((((bitGrid G).flatten).take n).length + 7) / 8 := decodeBits_length_le _
      _ ≤ (n + 7) / 8 := by
        have := List.length_take_le n ((bitGrid G).flatten)
        omega

/-- C4 (witness): the amended length bound at the all-zero 8x8 grid with
n = 1. -/
theorem extract_length_bounded_witness :
    1 ≤ 1 ∧
    (collectRows (mlActive (some 1)) (mlVal (some 1))
        [] (bitGrid (toReal (zeroG 8 8))) =
      ((bitGrid (toReal (zeroG 8 8))).flatten).take 1 ∧
    (((bitGrid (toReal (zeroG 8 8))).flatten).take 1).length =
      min 1 ((bitGrid (toReal (zeroG 8 8))).flatten).length ∧
    extractR (toReal (zeroG 8 8)) (some 1) =
      decodeBits (((bitGrid (toReal (zeroG 8 8))).flatten).take 1) ∧
    (extractR (toReal (zeroG 8 8)) (some 1)).length ≤ (1 + 7) / 8) :=
  ⟨le_rfl, extract_length_bounded (toReal (zeroG 8 8)) 1 le_rfl⟩

/-- C5: for every block, bit, and strength > 0, the coefficient at
(row 4, col 5) of the forward-transformed block after step 5c equals
+|c| + strength (hence is strictly positive) for bit 1 and -|c| - strength
(hence is strictly negative) for bit 0, where c is its original value. -/
theorem sign_encoding_rule (B : Matrix (Fin 8) (Fin 8) ℝ) (α : ℝ) (hα : 0 < α) :
    (setCoeff (dct2 B) true α 4 5 = |dct2 B 4 5| + α ∧
      0 < setCoeff (dct2 B) true α 4 5) ∧
    (setCoeff (dct2 B) false α 4 5 = -|dct2 B 4 5| - α ∧
      setCoeff (dct2 B) false α 4 5 < 0) := by
  have habs := abs_nonneg (dct2 B 4 5)
  have hv : ∀ b : Bool, setCoeff (dct2 B) b α 4 5 =
      (if b then |dct2 B 4 5| + α else -|dct2 B 4 5| - α) := by
    intro b
    unfold setCoeff
    rw [if_pos ⟨rfl, rfl⟩]
  constructor
  · rw [hv true, if_pos rfl]
    exact ⟨rfl, by linarith⟩
  · rw [hv false, if_neg (by simp)]
    exact ⟨rfl, by linarith⟩

/-- C5 (witness): the sign-encoding rule at the zero block with
strength 1. -/
theorem sign_encoding_rule_witness :
    (0 : ℝ) < 1 ∧
    ((setCoeff (dct2 0) true 1 4 5 = |dct2 (0 : Matrix (Fin 8) (Fin 8) ℝ) 4 5| + 1 ∧
      0 < setCoeff (dct2 0) true 1 4 5) ∧
    (setCoeff (dct2 0) false 1 4 5 = -|dct2 (0 : Matrix (Fin 8) (Fin 8) ℝ) 4 5| - 1 ∧
      setCoeff (dct2 0) false 1 4 5 < 0)) :=
  ⟨one_pos, sign_encoding_rule 0 1 one_pos⟩

/-- C6: after any successful embed, every sample of a block whose raster
index is at least the bitstream length is identical in the returned grid
to the corresponding sample of the (truncated) source grid. -/
theorem untouched_tail (g : Grid) (msg : List ℕ) (α : ℝ) (out : Grid) (r c : ℕ)
    (hval : ∀ r2 c2 : ℕ, 0 ≤ g.px r2 c2 ∧ g.px r2 c2 ≤ 255)
    (hok : embed g msg α = Except.ok out)
    (hr : r < newDim g.rows) (hc : c < newDim g.cols)
    (hidx : (payloadBits msg).length ≤ (r / 8) * (newDim g.cols / 8) + c / 8) :
    out.px r c = g.px r c := by
  have hfit : ¬(capacity g < (payloadBits msg).length) := by
    intro hcon
    rw [embed, if_pos hcon] at hok
    exact absurd hok (by simp)
  rw [embed_ok_px g msg α hfit] at hok
  rw [Except.ok.injEq] at hok
  rw [← hok]
  show (if r < newDim g.rows ∧ c < newDim g.cols
    then quantize (stegoPx g msg α r c) else 0) = g.px r c
  rw [if_pos ⟨hr, hc⟩, stegoPx_untouched g msg α r c ⟨hr, hc⟩ hidx]
  exact quantize_intCast (g.px r c) (hval r c).1 (hval r c).2

/-- C6 (witness): the untouched tail at the all-zero 32x32 grid with the
empty message (payload 8 bits, 16 blocks): the sample at (16, 0), in
block 8, survives unchanged. -/
theorem untouched_tail_witness :
    (∀ r2 c2 : ℕ, 0 ≤ (zeroG 32 32).px r2 c2 ∧ (zeroG 32 32).px r2 c2 ≤ 255) ∧
    embed (zeroG 32 32) [] (1 / 10) = Except.ok (zeroG 32 32) ∧
    16 < newDim (zeroG 32 32).rows ∧ 0 < newDim (zeroG 32 32).cols ∧
    (payloadBits ([] : List ℕ)).length ≤
      (16 / 8) * (newDim (zeroG 32 32).cols / 8) + 0 / 8 ∧
    (zeroG 32 32).px 16 0 = (zeroG 32 32).px 16 0 := by
  have hval : ∀ r2 c2 : ℕ, 0 ≤ (zeroG 32 32).px r2 c2 ∧ (zeroG 32 32).px r2 c2 ≤ 255 := by
    intro r2 c2
    exact ⟨le_rfl, by show (0:ℤ) ≤ 255; norm_num⟩
  have hok : embed (zeroG 32 32) [] (1 / 10) = Except.ok (zeroG 32 32) :=
    embed_zeroG 32 32 [] rfl rfl (by rw [payloadBits_length [] (by simp)]; decide)
  have hidx : (payloadBits ([] : List ℕ)).length ≤
      (16 / 8) * (newDim (zeroG 32 32).cols / 8) + 0 / 8 := by
    rw [payloadBits_length [] (by simp)]
    decide
  exact ⟨hval, hok, by decide, by decide, hidx,
    untouched_tail (zeroG 32 32) [] (1 / 10) (zeroG 32 32) 16 0 hval hok
      (by decide) (by decide) hidx⟩

/-- C7: for every real 8x8 block, the inverse separable orthonormal
transform (axis 0 then axis 1) of the forward transform is the original
block, exactly over the reals. -/
theorem transform_roundtrip (B : Matrix (Fin 8) (Fin 8) ℝ) : idct2 (dct2 B) = B :=
  idct2_dct2 B

/-- C8: the collected bits are split into consecutive 8-bit groups whose
concatenation is the whole list (so any incomplete trailing group is
discarded by the length-8 filter); a full group contributes the character
of its unsigned value exactly when that value is printable ASCII (32-126)
or tab/newline/carriage-return, and every other group is silently
dropped. -/
theorem filtering_policy (l : List Bool) :
    decodeBits l = String.mk ((chunks8 l).filterMap fun ch =>
      if ch.length = 8 ∧ isAccepted (byteVal ch) = true
      then some (Char.ofNat (byteVal ch)) else none) ∧
    (chunks8 l).flatten = l ∧
    ∀ v : ℕ, isAccepted v = true ↔
      ((32 ≤ v ∧ v ≤ 126) ∨ v = 9 ∨ v = 10 ∨ v = 13) :=
  ⟨decodeBits_eq_specChars l, flatten_chunks8 l, fun v => isAccepted_iff v⟩

/-- C9: embedding and extraction behave on any grid exactly as on its
crop to the largest lower multiples of 8 (whose samples outside the kept
region are discarded), the output dimensions are those lower multiples,
and a 20x20 grid has capacity 4 blocks. -/
theorem truncation_behavior (g : Grid) (msg : List ℕ) (α : ℝ) (ml : Option ℕ) :
    embed g msg α = embed (crop g) msg α ∧
    extractI g ml = extractI (crop g) ml ∧
    (crop g).rows = 8 * (g.rows / 8) ∧ (crop g).cols = 8 * (g.cols / 8) ∧
    capacity (Grid.mk 20 20 g.px) = 4 :=
  ⟨embed_crop g msg α, extractI_crop g ml, newDim_eq g.rows, newDim_eq g.cols,
    by norm_num [capacity, newDim]⟩

/-- C10: whenever the capacity check passes, the embedder's block loop
consumes every bit of the payload bitstream, so the reported embedded-bit
count equals the total bitstream length. -/
theorem full_embedding_on_success (g : Grid) (msg : List ℕ)
    (hfit : (payloadBits msg).length ≤ capacity g) :
    finalBitIndex (capacity g) (payloadBits msg).length =
      (payloadBits msg).length := by
  rw [finalBitIndex_eq_min]
  omega

/-- C10 (witness): the full-embedding count at the all-zero 32x32 grid
with the message "A" (16 bits into 16 blocks). -/
theorem full_embedding_on_success_witness :
    (payloadBits [65]).length ≤ capacity (zeroG 32 32) ∧
    finalBitIndex (capacity (zeroG 32 32)) (payloadBits [65]).length =
      (payloadBits [65]).length := by
  have hfit : (payloadBits [65]).length ≤ capacity (zeroG 32 32) := by
    rw [payloadBits_length [65] (by decide)]
    decide
  exact ⟨hfit, full_embedding_on_success (zeroG 32 32) [65] hfit⟩
